import Mathlib

/-!
Shallow embedding of the go-jsonmp JSON Merge Patch (RFC 7386) implementation
(jsonmp.go) and proofs about its merge algorithm.

Go's encoding/json decodes a JSON document into an interface value holding
nil, bool, float64, string, []interface, or map[string]interface.  We model
these values with the inductive type Value below; a Go map is modelled as an
association list with unique keys (Go maps cannot hold a key twice), and the
Go map primitives (lookup, assignment, delete) are modelled by mapGet,
mapSet and mapDel.
-/

namespace Jsonmp

/-- A decoded JSON value, as produced by Go's encoding/json into an
interface value: nil, bool, float64 (modelled as a rational), string,
a slice of values, or a map from string keys to values (modelled as an
association list). -/
inductive Value : Type where
  | null : Value
  | bool (b : Bool) : Value
  | num (q : Rat) : Value
  | str (s : String) : Value
  | arr (elems : List Value) : Value
  | obj (entries : List (String × Value)) : Value

/-- Whether a Value is a JSON Object, i.e. whether the Go type assertion
v.(map[string]interface) succeeds. -/
def Value.isObj : Value → Bool
  | Value.obj _ => true
  | _ => false

/-- Go map read m[k]: the value at the first (hence, with unique keys, only)
entry with key k. -/
def mapGet : List (String × Value) → String → Option Value
  | [], _ => none
  | (k, v) :: rest, key => if k = key then some v else mapGet rest key

/-- Go map write m[k] = v: replace the value at key k, or add the entry if
the key is absent. -/
def mapSet : List (String × Value) → String → Value → List (String × Value)
  | [], key, val => [(key, val)]
  | (k, v) :: rest, key, val =>
    if k = key then (key, val) :: rest else (k, v) :: mapSet rest key val

/-- Go map delete(m, k): remove the entry with key k, if present. -/
def mapDel : List (String × Value) → String → List (String × Value)
  | [], _ => []
  | (k, v) :: rest, key =>
    if k = key then rest else (k, v) :: mapDel rest key

/-- Whether a key is present in the map. -/
def hasKey (m : List (String × Value)) (k : String) : Bool :=
  (mapGet m k).isSome

/-- A Go map never holds the same key twice; an association list models a Go
map only when its keys are pairwise distinct. -/
def nodupKeys : List (String × Value) → Bool
  | [] => true
  | (k, _) :: rest => !(hasKey rest k) && nodupKeys rest

/-- jsonmp.go removeNull: recursively removes null entries in a map.
The Go loop deletes each key whose value is nil and replaces each map-typed
value c by removeNull(c); all other entries are untouched. -/
def removeNull : List (String × Value) → List (String × Value)
  | [] => []
  | (k, v) :: rest =>
    match v with
    | Value.null => removeNull rest
    | Value.obj c => (k, Value.obj (removeNull c)) :: removeNull rest
    | _ => (k, v) :: removeNull rest
termination_by m => sizeOf m
decreasing_by all_goals (simp_wf <;> omega)

mutual

/-- jsonmp.go patch: patches A with B and returns the result.  If a is a
map it is handled by handleMap; otherwise, if b is a map its null entries
are removed; otherwise b is returned. -/
def patch : Value → Value → Value
  | Value.obj m, b => handleMap m b
  | _, Value.obj c => Value.obj (removeNull c)
  | _, b => b
termination_by a b => (sizeOf b, 1)

/-- jsonmp.go handleMap: handles patching of map values.  When the patch p
is not a map, the patch type over-rules and p is returned; otherwise the
loop over p's entries (applyKeys) updates m and m is returned. -/
def handleMap : List (String × Value) → Value → Value
  | m, Value.obj c => Value.obj (applyKeys m c)
  | _, p => p
termination_by m p => (sizeOf p, 0)

/-- The loop body of handleMap for one key k with patch value v:
if k is a new key, a nil value is skipped, a map value is inserted with its
nulls removed, and any other value is inserted as is; if k is an old key, a
nil value deletes it, a map value n sets m[k] = patch(m[k], n), and any
other value overwrites it. -/
def step (m : List (String × Value)) (k : String) (v : Value) :
    List (String × Value) :=
  match mapGet m k, v with
  | none, Value.null => m
  | none, Value.obj n => mapSet m k (Value.obj (removeNull n))
  | none, _ => mapSet m k v
  | some _, Value.null => mapDel m k
  | some old, Value.obj n => mapSet m k (patch old (Value.obj n))
  | some _, _ => mapSet m k v
termination_by (sizeOf v, 2)

/-- The range loop of handleMap: fold step over the patch map's entries.
Go map iteration order is unspecified; the entries are processed here in
list order (each key of a Go map occurs exactly once, and distinct keys
touch distinct entries of m, so the order cannot change the result). -/
def applyKeys : List (String × Value) → List (String × Value) →
    List (String × Value)
  | m, [] => m
  | m, (k, v) :: rest => applyKeys (step m k v) rest
termination_by m c => (sizeOf c, 3)

end

/-- The value stored by step at key k, as a function of the previous value
at k (none when k was a new key): a derived abbreviation of step's effect
on the entry at k, used to state lookup lemmas. -/
def stepVal (o : Option Value) : Value → Value
  | Value.obj n =>
    match o with
    | some old => patch old (Value.obj n)
    | none => Value.obj (removeNull n)
  | v => v

/-- Look a value up along a path of object keys: getPath v [] is v, and
getPath v (k :: ks) descends into the entry at key k when v is an Object
(and is none otherwise). -/
def getPath : Value → List String → Option Value
  | v, [] => some v
  | Value.obj m, k :: ks =>
    match mapGet m k with
    | some v => getPath v ks
    | none => none
  | _, _ :: _ => none

/-- No entry of the map, nor of any Object nested in it through object
values, holds a null value.  Arrays are opaque: their elements are not
inspected, matching the reach of removeNull. -/
def noNulls : List (String × Value) → Bool
  | [] => true
  | (_, v) :: rest =>
    match v with
    | Value.null => false
    | Value.obj c => noNulls c && noNulls rest
    | _ => noNulls rest
termination_by m => sizeOf m
decreasing_by all_goals (simp_wf <;> omega)

mutual

/-- A value is well formed when every Object reachable through object
values has pairwise distinct keys, which is an invariant of every value
decoded from a Go map. -/
def wfV : Value → Bool
  | Value.obj m => nodupKeys m && wfEntries m
  | _ => true
termination_by v => sizeOf v

/-- All values of the entries are well formed. -/
def wfEntries : List (String × Value) → Bool
  | [] => true
  | (_, v) :: rest => wfV v && wfEntries rest
termination_by l => sizeOf l

end

/-! Lemmas about the Go map primitives -/

lemma mapGet_mapSet_self (m : List (String × Value)) (k : String) (v : Value) :
    mapGet (mapSet m k v) k = some v := by
  induction m with
  | nil => simp [mapGet, mapSet]
  | cons kv rest ih =>
    obtain ⟨k0, v0⟩ := kv
    by_cases h : k0 = k <;> simp [mapGet, mapSet, h, ih]

lemma mapGet_mapSet_ne (m : List (String × Value)) {k k2 : String} (v : Value)
    (h : k2 ≠ k) : mapGet (mapSet m k v) k2 = mapGet m k2 := by
  have h' : k ≠ k2 := Ne.symm h
  induction m with
  | nil => simp [mapGet, mapSet, h']
  | cons kv rest ih =>
    obtain ⟨k0, v0⟩ := kv
    by_cases h0 : k0 = k
    · subst h0
      simp [mapGet, mapSet, h']
    · simp [mapGet, mapSet, h0, ih]

lemma mapGet_mapDel_ne (m : List (String × Value)) {k k2 : String}
    (h : k2 ≠ k) : mapGet (mapDel m k) k2 = mapGet m k2 := by
  have h' : k ≠ k2 := Ne.symm h
  induction m with
  | nil => simp [mapGet, mapDel]
  | cons kv rest ih =>
    obtain ⟨k0, v0⟩ := kv
    by_cases h0 : k0 = k
    · subst h0
      simp [mapGet, mapDel, h']
    · simp [mapGet, mapDel, h0, ih]

lemma mapGet_of_hasKey_false {m : List (String × Value)} {k : String}
    (h : hasKey m k = false) : mapGet m k = none := by
  unfold hasKey at h
  cases hm : mapGet m k <;> simp [hm] at h ⊢

lemma mapGet_mapDel_self {m : List (String × Value)} (k : String)
    (h : nodupKeys m = true) : mapGet (mapDel m k) k = none := by
  induction m with
  | nil => simp [mapGet, mapDel]
  | cons kv rest ih =>
    obtain ⟨k0, v0⟩ := kv
    simp only [nodupKeys, Bool.and_eq_true, Bool.not_eq_true'] at h
    by_cases h0 : k0 = k
    · subst h0
      simpa [mapDel] using mapGet_of_hasKey_false h.1
    · simp [mapGet, mapDel, h0, ih h.2]

/-! Lemmas about one loop iteration of handleMap -/

lemma mapGet_step_ne (m : List (String × Value)) (k : String) (v : Value)
    {k2 : String} (h : k2 ≠ k) : mapGet (step m k v) k2 = mapGet m k2 := by
  cases hm : mapGet m k <;> cases v <;>
    simp [step, hm, mapGet_mapSet_ne _ _ h, mapGet_mapDel_ne _ h]

lemma mapGet_step_self (m : List (String × Value)) (k : String) {v : Value}
    (hv : v ≠ Value.null) :
    mapGet (step m k v) k = some (stepVal (mapGet m k) v) := by
  cases hm : mapGet m k <;> cases v <;>
    simp_all [step, stepVal, mapGet_mapSet_self]

/-! Lemmas about the whole loop of handleMap -/

lemma mapGet_applyKeys_of_hasKey_false (c : List (String × Value))
    (m : List (String × Value)) {k : String} (h : hasKey c k = false) :
    mapGet (applyKeys m c) k = mapGet m k := by
  induction c generalizing m with
  | nil => simp [applyKeys]
  | cons kv rest ih =>
    obtain ⟨k1, v1⟩ := kv
    have h1 : ¬(k1 = k) := by
      intro he
      simp [hasKey, mapGet, he] at h
    have h2 : hasKey rest k = false := by
      simpa [hasKey, mapGet, h1] using h
    simp only [applyKeys]
    rw [ih _ h2, mapGet_step_ne _ _ _ (fun he => h1 he.symm)]

lemma mapGet_applyKeys (c : List (String × Value)) (m : List (String × Value))
    {k : String} {v : Value} (hc : nodupKeys c = true)
    (hk : mapGet c k = some v) (hv : v ≠ Value.null) :
    mapGet (applyKeys m c) k = some (stepVal (mapGet m k) v) := by
  induction c generalizing m with
  | nil => simp [mapGet] at hk
  | cons kv rest ih =>
    obtain ⟨k1, v1⟩ := kv
    simp only [nodupKeys, Bool.and_eq_true, Bool.not_eq_true'] at hc
    by_cases h1 : k1 = k
    · subst h1
      have hv1 : v1 = v := by simpa [mapGet] using hk
      subst hv1
      simp only [applyKeys]
      rw [mapGet_applyKeys_of_hasKey_false _ _ hc.1, mapGet_step_self _ _ hv]
    · simp only [mapGet, if_neg h1] at hk
      simp only [applyKeys]
      rw [ih _ hc.2 hk, mapGet_step_ne _ _ _ (fun he => h1 he.symm)]

/-! Lemmas about removeNull -/

lemma noNulls_removeNull (m : List (String × Value)) :
    noNulls (removeNull m) = true := by
  induction m using removeNull.induct with
  | case1 => simp [removeNull, noNulls]
  | case2 k rest ih => simpa [removeNull] using ih
  | case3 k c rest ih1 ih2 => simp [removeNull, noNulls, ih1, ih2]
  | case4 k v rest hnull hobj ih =>
    cases v <;> simp_all [removeNull, noNulls]

lemma mapGet_removeNull {m : List (String × Value)} {k : String} {v : Value}
    (hm : mapGet m k = some v) (hv : v ≠ Value.null) :
    mapGet (removeNull m) k = some (stepVal none v) := by
  induction m with
  | nil => simp [mapGet] at hm
  | cons kv rest ih =>
    obtain ⟨k0, v0⟩ := kv
    by_cases h0 : k0 = k
    · subst h0
      have hv0 : v0 = v := by simpa [mapGet] using hm
      subst hv0
      cases v0 <;> simp_all [removeNull, mapGet, stepVal]
    · have hm2 : mapGet rest k = some v := by simpa [mapGet, h0] using hm
      cases v0 <;> simp [removeNull, mapGet, h0, ih hm2]

/-! Lemmas about well-formedness -/

lemma wfEntries_get {m : List (String × Value)} {k : String} {v : Value}
    (hw : wfEntries m = true) (hm : mapGet m k = some v) : wfV v = true := by
  induction m with
  | nil => simp [mapGet] at hm
  | cons kv rest ih =>
    obtain ⟨k0, v0⟩ := kv
    rw [wfEntries, Bool.and_eq_true] at hw
    by_cases h0 : k0 = k
    · have hv0 : v0 = v := by
        subst h0
        simpa [mapGet] using hm
      subst hv0
      exact hw.1
    · have hm2 : mapGet rest k = some v := by simpa [mapGet, h0] using hm
      exact ih hw.2 hm2

/-! Bridge lemmas for patch and handleMap -/

lemma patch_obj_left (m : List (String × Value)) (b : Value) :
    patch (Value.obj m) b = handleMap m b := by
  simp [patch]

lemma handleMap_obj (m c : List (String × Value)) :
    handleMap m (Value.obj c) = Value.obj (applyKeys m c) := by
  simp [handleMap]

lemma handleMap_not_obj (m : List (String × Value)) {p : Value}
    (h : p.isObj = false) : handleMap m p = p := by
  cases p <;> simp_all [handleMap, Value.isObj]

lemma patch_not_obj (a : Value) {b : Value} (h : b.isObj = false) :
    patch a b = b := by
  cases a <;> cases b <;> simp_all [patch, handleMap, Value.isObj]

lemma patch_not_obj_left {a : Value} (c : List (String × Value))
    (h : a.isObj = false) : patch a (Value.obj c) = Value.obj (removeNull c) := by
  cases a <;> simp_all [patch, Value.isObj]

lemma patch_null_left (c : List (String × Value)) :
    patch Value.null (Value.obj c) = Value.obj (removeNull c) := by
  simp [patch]

/-! Claim C6 -/

/-- Claim C6, counterexample: the claim says that at every depth a non-Object
patch value becomes the result value at that position wholesale; but a Null
patch value at a nested position deletes the key, so the result holds
nothing at that position while the patch holds Null there.  Concretely,
for target \x7b"a":1\x7d and patch \x7b"a":null\x7d the merged result is \x7b\x7d. -/
theorem nested_null_not_replaced_verbatim_cex :
    getPath (patch (Value.obj [("a", Value.num 1)])
        (Value.obj [("a", Value.null)])) ["a"]
      ≠ getPath (Value.obj [("a", Value.null)]) ["a"] := by
  have h1 : patch (Value.obj [("a", Value.num 1)])
      (Value.obj [("a", Value.null)]) = Value.obj [] := by
    simp [patch, handleMap, applyKeys, step, mapGet, mapDel]
  rw [h1]
  simp [getPath, mapGet]

/-- Claim C6, amended: at every depth, whenever the patch value at a position is
an Array or any non-Object value other than Null, the result at that
position is the patch value wholesale, never an element-wise merge with the
target's value; nested Object values merge key-by-key, everything else
except the per-key Null (which deletes) replaces.  Formally: if the path
leads in the patch document b to a non-Object, non-Null value pv, then the
same path leads to pv verbatim in the merged result, for every target. -/
theorem patch_replaces_nonObj_nonNull_at_every_depth
    (path : List String) (a b pv : Value)
    (hwf : wfV b = true) (hget : getPath b path = some pv)
    (hobj : pv.isObj = false) (hnull : pv ≠ Value.null) :
    getPath (patch a b) path = some pv := by
  induction path generalizing a b with
  | nil =>
    have hb : b = pv := by simpa [getPath] using hget
    subst hb
    rw [patch_not_obj a hobj]
    simp [getPath]
  | cons k ks ih =>
    cases b with
    | null => simp [getPath] at hget
    | bool b0 => simp [getPath] at hget
    | num q => simp [getPath] at hget
    | str s => simp [getPath] at hget
    | arr xs => simp [getPath] at hget
    | obj c =>
      simp only [getPath] at hget
      cases hmg : mapGet c k with
      | none => simp [hmg] at hget
      | some v1 =>
        simp only [hmg] at hget
        have hwfc : nodupKeys c = true ∧ wfEntries c = true := by
          simpa [wfV, Bool.and_eq_true] using hwf
        have hwf1 : wfV v1 = true := wfEntries_get hwfc.2 hmg
        have hv1null : v1 ≠ Value.null := by
          intro he
          subst he
          cases ks with
          | nil =>
            have : Value.null = pv := by simpa [getPath] using hget
            exact hnull this.symm
          | cons k2 ks2 => simp [getPath] at hget
        have key : ∀ o : Option Value, getPath (stepVal o v1) ks = some pv := by
          intro o
          by_cases hv1obj : v1.isObj = true
          · obtain ⟨n, rfl⟩ : ∃ n, v1 = Value.obj n := by
              cases v1 <;> simp_all [Value.isObj]
            cases o with
            | some old => exact ih old (Value.obj n) hwf1 hget
            | none =>
              show getPath (Value.obj (removeNull n)) ks = some pv
              rw [← patch_null_left]
              exact ih Value.null (Value.obj n) hwf1 hget
          · have hsv : stepVal o v1 = v1 := by
              cases v1 <;> simp_all [stepVal, Value.isObj]
            rw [hsv]
            cases ks with
            | nil =>
              have hpv : v1 = pv := by simpa [getPath] using hget
              rw [hpv]
              simp [getPath]
            | cons k2 ks2 => cases v1 <;> simp_all [getPath]
        by_cases haobj : a.isObj = true
        · obtain ⟨m, rfl⟩ : ∃ m, a = Value.obj m := by
            cases a <;> simp_all [Value.isObj]
          rw [patch_obj_left, handleMap_obj]
          have hlook : mapGet (applyKeys m c) k = some (stepVal (mapGet m k) v1) :=
            mapGet_applyKeys c m hwfc.1 hmg hv1null
          simp only [getPath, hlook]
          exact key _
        · rw [patch_not_obj_left c (by simpa using haobj)]
          have hlook : mapGet (removeNull c) k = some (stepVal none v1) :=
            mapGet_removeNull hmg hv1null
          simp only [getPath, hlook]
          exact key none

/-- Claim C6 witness: the spec's array scenario, target \x7b"a":[\x7b"b":"c"\x7d]\x7d and
patch \x7b"a":[1]\x7d; the array [1] at position "a" replaces the target's
array wholesale. -/
theorem patch_replaces_nonObj_nonNull_at_every_depth_witness :
    wfV (Value.obj [("a", Value.arr [Value.num 1])]) = true
    ∧ getPath (Value.obj [("a", Value.arr [Value.num 1])]) ["a"]
        = some (Value.arr [Value.num 1])
    ∧ getPath (patch
          (Value.obj [("a", Value.arr [Value.obj [("b", Value.str "c")]])])
          (Value.obj [("a", Value.arr [Value.num 1])])) ["a"]
        = some (Value.arr [Value.num 1]) := by
  refine ⟨?_, ?_, ?_⟩
  · simp [wfV, wfEntries, nodupKeys, hasKey, mapGet]
  · simp [getPath, mapGet]
  · exact patch_replaces_nonObj_nonNull_at_every_depth ["a"] _ _ _
      (by simp [wfV, wfEntries, nodupKeys, hasKey, mapGet])
      (by simp [getPath, mapGet]) (by simp [Value.isObj]) (by simp)

/-! Claim C3 -/

/-- Claim C3: for every Object target with key k present (targets decoded from Go
maps have pairwise distinct keys), merging with the one-key patch
\x7bk: null\x7d returns the Object with the entry at k deleted: key k is
absent from the result and every other key maps to its original value. -/
theorem merge_null_value_removes_key (m : List (String × Value)) (k : String)
    (hnd : nodupKeys m = true) (hk : hasKey m k = true) :
    patch (Value.obj m) (Value.obj [(k, Value.null)]) = Value.obj (mapDel m k)
    ∧ mapGet (mapDel m k) k = none
    ∧ ∀ k2, k2 ≠ k → mapGet (mapDel m k) k2 = mapGet m k2 := by
  obtain ⟨w, hw⟩ : ∃ w, mapGet m k = some w := by
    unfold hasKey at hk
    cases hm : mapGet m k <;> simp [hm] at hk ⊢
  refine ⟨?_, mapGet_mapDel_self k hnd, fun k2 h2 => mapGet_mapDel_ne m h2⟩
  rw [patch_obj_left, handleMap_obj]
  simp [applyKeys, step, hw]

/-- Claim C3 witness: deleting "a" from \x7b"a":"b","b":"c"\x7d keeps "b". -/
theorem merge_null_value_removes_key_witness :
    nodupKeys [("a", Value.str "b"), ("b", Value.str "c")] = true
    ∧ hasKey [("a", Value.str "b"), ("b", Value.str "c")] "a" = true
    ∧ patch (Value.obj [("a", Value.str "b"), ("b", Value.str "c")])
        (Value.obj [("a", Value.null)])
        = Value.obj (mapDel [("a", Value.str "b"), ("b", Value.str "c")] "a")
    ∧ mapGet (mapDel [("a", Value.str "b"), ("b", Value.str "c")] "a") "a" = none
    ∧ mapGet (mapDel [("a", Value.str "b"), ("b", Value.str "c")] "a") "b"
        = mapGet [("a", Value.str "b"), ("b", Value.str "c")] "b" := by
  have h := merge_null_value_removes_key
    [("a", Value.str "b"), ("b", Value.str "c")] "a" (by rfl) (by rfl)
  exact ⟨rfl, rfl, h.1, h.2.1, h.2.2 "b" (by simp)⟩

/-! Claim C4 -/

/-- Claim C4: for every target of any shape, merging with the top-level Null
patch returns Null: the whole document is replaced. -/
theorem merge_top_level_null_wins (a : Value) : patch a Value.null = Value.null := by
  cases a <;> simp [patch, handleMap]

/-! Claim C5 -/

/-- Claim C5: for every Object target, merging with the empty-Object patch is the
identity: the loop over the patch's keys has nothing to process and the
target Object is returned unchanged. -/
theorem merge_empty_patch_identity (m : List (String × Value)) :
    patch (Value.obj m) (Value.obj []) = Value.obj m := by
  simp [patch, handleMap, applyKeys]

/-! Claim C9 -/

/-- Claim C9: the merge is a total function over every pair of decoded JSON
values: patch is defined by terminating recursion with no error case, so
every pair of values yields a result. -/
theorem patch_total (a b : Value) : ∃ r : Value, patch a b = r :=
  ⟨patch a b, rfl⟩

/-! Claim C7 -/

/-- Claim C7: when patch key k is absent from the target Object and its patch
value is an Object n, the value inserted at k is removeNull n; removeNull
drops every Null-valued pair from every Object at any depth reachable
through object values while arrays pass through unchanged; and
merging \x7b\x7d with \x7b"a":\x7b"bb":\x7b"ccc":null\x7d\x7d\x7d gives
\x7b"a":\x7b"bb":\x7b\x7d\x7d\x7d. -/
theorem new_key_object_value_sanitized :
    (∀ (m c : List (String × Value)) (k : String) (n : List (String × Value)),
      nodupKeys c = true → mapGet m k = none → mapGet c k = some (Value.obj n) →
      ∃ rm, patch (Value.obj m) (Value.obj c) = Value.obj rm
        ∧ mapGet rm k = some (Value.obj (removeNull n)))
    ∧ (∀ m : List (String × Value), noNulls (removeNull m) = true)
    ∧ (∀ (m : List (String × Value)) (k : String) (xs : List Value),
        mapGet m k = some (Value.arr xs) →
        mapGet (removeNull m) k = some (Value.arr xs))
    ∧ patch (Value.obj [])
        (Value.obj [("a", Value.obj [("bb", Value.obj [("ccc", Value.null)])])])
      = Value.obj [("a", Value.obj [("bb", Value.obj [])])] := by
  refine ⟨?_, noNulls_removeNull, ?_, ?_⟩
  · intro m c k n hc hm hk
    refine ⟨applyKeys m c, by rw [patch_obj_left, handleMap_obj], ?_⟩
    have h := mapGet_applyKeys c m hc hk (by simp)
    rw [h, hm]
    rfl
  · intro m k xs hm
    exact mapGet_removeNull hm (by simp)
  · rw [patch_obj_left, handleMap_obj]
    simp [applyKeys, step, mapGet, mapSet, removeNull]

/-- Claim C7 witness: the quantified parts at concrete inputs: inserting new key
"a" with Object value \x7b"x":null,"y":2\x7d into \x7b"b":1\x7d stores
\x7b"y":2\x7d, and removeNull passes the array value at "z" through. -/
theorem new_key_object_value_sanitized_witness :
    (∃ rm, patch (Value.obj [("b", Value.num 1)])
        (Value.obj [("a", Value.obj [("x", Value.null), ("y", Value.num 2)])])
        = Value.obj rm
      ∧ mapGet rm "a" = some (Value.obj
          (removeNull [("x", Value.null), ("y", Value.num 2)])))
    ∧ noNulls (removeNull [("x", Value.null)]) = true
    ∧ mapGet (removeNull [("z", Value.arr [Value.null])]) "z"
        = some (Value.arr [Value.null]) := by
  have h := new_key_object_value_sanitized
  exact ⟨h.1 [("b", Value.num 1)] _ "a" _ (by rfl) (by rfl) (by rfl),
    h.2.1 [("x", Value.null)],
    h.2.2.1 [("z", Value.arr [Value.null])] "z" [Value.null] (by rfl)⟩

/-! Claim C8 -/

/-- Claim C8: when key k exists in the target Object with a non-Object, non-Null
value and the patch value at k is an Object n, the code sets
m[k] = patch(old, n), and since old is not a map this is removeNull n: the
result at k is the sanitized patch Object, exactly as in the new-key
case. -/
theorem existing_scalar_patched_with_object_sanitized
    (m c : List (String × Value)) (k : String) (old : Value)
    (n : List (String × Value)) (hc : nodupKeys c = true)
    (hm : mapGet m k = some old) (hobj : old.isObj = false)
    (hnull : old ≠ Value.null) (hk : mapGet c k = some (Value.obj n)) :
    ∃ rm, patch (Value.obj m) (Value.obj c) = Value.obj rm
      ∧ mapGet rm k = some (Value.obj (removeNull n)) := by
  refine ⟨applyKeys m c, by rw [patch_obj_left, handleMap_obj], ?_⟩
  have h := mapGet_applyKeys c m hc hk (by simp)
  rw [h, hm]
  show some (stepVal (some old) (Value.obj n)) = _
  have : stepVal (some old) (Value.obj n) = patch old (Value.obj n) := rfl
  rw [this, patch_not_obj_left n hobj]

/-- Claim C8 witness: target \x7b"a":"b"\x7d patched with
\x7b"a":\x7b"x":null,"y":2\x7d\x7d stores \x7b"y":2\x7d at "a". -/
theorem existing_scalar_patched_with_object_sanitized_witness :
    ∃ rm, patch (Value.obj [("a", Value.str "b")])
        (Value.obj [("a", Value.obj [("x", Value.null), ("y", Value.num 2)])])
        = Value.obj rm
      ∧ mapGet rm "a" = some (Value.obj
          (removeNull [("x", Value.null), ("y", Value.num 2)])) :=
  existing_scalar_patched_with_object_sanitized
    [("a", Value.str "b")] _ "a" (Value.str "b") _
    (by rfl) (by rfl) (by rfl) (by simp) (by rfl)

/-! Mutation model for the target argument (claim C1)

Go maps are reference values.  handleMap receives the caller's map m and
performs delete(m, k) and m[k] = ... directly on it; neither patch nor
handleMap copies m.  Assignments m[k] = patch(m[k], n) store the reference
returned by the recursive call, which for a map-valued m[k] is that same
(now mutated) nested map.  Hence, when both arguments are Objects, the
caller's target map after the call holds exactly the entries applyKeys
computes; when the patch is not an Object the loop is never entered, and
when the target is not an Object handleMap is never called, so the target
is untouched. -/

/-- The value of the caller's target argument after patch(target, b)
returns, per the in-place map writes of handleMap. -/
def targetAfterPatch : Value → Value → Value
  | Value.obj m, Value.obj c => Value.obj (applyKeys m c)
  | a, _ => a

/-- Claim C1, counterexample: merge does not operate on a copy of the target's
top-level Object; patching target \x7b"a":"b"\x7d with \x7b"a":"c"\x7d
rewrites the caller's map in place, so afterwards the caller's original
target value is \x7b"a":"c"\x7d, not the value passed in. -/
theorem merge_preserves_caller_target_cex :
    targetAfterPatch (Value.obj [("a", Value.str "b")])
        (Value.obj [("a", Value.str "c")])
      ≠ Value.obj [("a", Value.str "b")] := by
  simp [targetAfterPatch, applyKeys, step, mapGet, mapSet]

/-- Claim C1, amended: merge mutates the caller's top-level target Object in
place: when target and patch are both Objects the caller's target value
after the call is the merged result itself, and only when one of the two
is not an Object is the target left unchanged. -/
theorem merge_mutates_caller_target (a b : Value) :
    targetAfterPatch a b = if a.isObj && b.isObj then patch a b else a := by
  cases a <;> cases b <;> simp [targetAfterPatch, Value.isObj, patch, handleMap]

/-! Mutation model for the patch argument (claim C2)

removeNull(m) deletes null entries of m and reassigns m[k] =
removeNull(c) for map values, all in place on the caller's map, and
returns that same map: afterwards the caller's map equals the functional
removeNull of its former contents.  Inside handleMap's loop the patch
entries (k, v) themselves are only read, but their values are mutated:
inserting a new map value n runs removeNull(n) on it; for an old entry
whose current value is a map o, patch(m[k], n) = handleMap(o, n) recurses
into n; for an old non-map value, patch(m[k], n) = removeNull(n).
Non-map patch values are never touched. -/

/-- The contents of the patch Object c after handleMap(m, obj c) returns:
each entry keeps its key, and its value is rewritten exactly when the loop
ran removeNull or a recursive handleMap on it; the target map threads
through the same per-key updates (step) the loop performs. -/
def patchAfterEntries : List (String × Value) → List (String × Value) →
    List (String × Value)
  | _, [] => []
  | m, (k, v) :: rest =>
    let tail := patchAfterEntries (step m k v) rest
    match mapGet m k, v with
    | none, Value.null => (k, Value.null) :: tail
    | none, Value.obj n => (k, Value.obj (removeNull n)) :: tail
    | none, _ => (k, v) :: tail
    | some _, Value.null => (k, Value.null) :: tail
    | some (Value.obj o), Value.obj n => (k, Value.obj (patchAfterEntries o n)) :: tail
    | some _, Value.obj n => (k, Value.obj (removeNull n)) :: tail
    | some _, _ => (k, v) :: tail
termination_by _ c => sizeOf c
decreasing_by all_goals (simp_wf <;> omega)

/-- The value of the caller's patch argument after patch(a, b) returns. -/
def patchInputAfter : Value → Value → Value
  | Value.obj m, Value.obj c => Value.obj (patchAfterEntries m c)
  | Value.obj _, b => b
  | _, Value.obj c => Value.obj (removeNull c)
  | _, b => b

/-- Claim C2, counterexample: the whole-patch return of case 2 (target not an
Object, patch an Object) is removeNull(patch), which mutates the caller's
patch map in place: patching target 5 with \x7b"a":null\x7d leaves the
caller's patch value as \x7b\x7d, not the value passed in. -/
theorem merge_preserves_patch_input_cex :
    patchInputAfter (Value.num 5) (Value.obj [("a", Value.null)])
      ≠ Value.obj [("a", Value.null)] := by
  simp [patchInputAfter, removeNull]

/-- Claim C2, amended: merge never mutates the non-Object patch substructures it
assigns directly into the result: a non-Object top-level patch (case 3) is
returned with the caller's patch untouched, and inside an Object-Object
merge every non-Object patch entry value is still present verbatim at its
key after the call (case 1's verbatim-replace); but the case-2 whole-patch
return mutates the caller's patch Object in place into its null-stripped
form. -/
theorem merge_patch_input_mutation
    : (∀ a b : Value, b.isObj = false → patchInputAfter a b = b)
    ∧ (∀ (m c : List (String × Value)) (k : String) (v : Value),
        mapGet c k = some v → v.isObj = false →
        mapGet (patchAfterEntries m c) k = some v)
    ∧ (∀ (a : Value) (c : List (String × Value)), a.isObj = false →
        patchInputAfter a (Value.obj c) = Value.obj (removeNull c)) := by
  refine ⟨?_, ?_, ?_⟩
  · intro a b hb
    cases a <;> cases b <;> simp_all [patchInputAfter, Value.isObj]
  · intro m c k v hk hv
    induction c generalizing m with
    | nil => simp [mapGet] at hk
    | cons kv rest ih =>
      obtain ⟨k1, v1⟩ := kv
      by_cases h1 : k1 = k
      · subst h1
        have hv1 : v1 = v := by simpa [mapGet] using hk
        subst hv1
        cases hm2 : mapGet m k1 with
        | none => cases v1 <;> simp_all [patchAfterEntries, mapGet, Value.isObj]
        | some old =>
          cases old <;> cases v1 <;> simp_all [patchAfterEntries, mapGet, Value.isObj]
      · have hk2 : mapGet rest k = some v := by simpa [mapGet, h1] using hk
        cases hm2 : mapGet m k1 with
        | none =>
          cases v1 <;>
            (simp [patchAfterEntries, hm2, mapGet, h1]; exact ih _ hk2)
        | some old =>
          cases old <;> cases v1 <;>
            (simp [patchAfterEntries, hm2, mapGet, h1]; exact ih _ hk2)
  · intro a c ha
    cases a <;> simp_all [patchInputAfter, Value.isObj]

/-- Claim C2 witness: the three parts at concrete inputs: a string patch is
returned untouched; the array value at patch key "a" is still there
verbatim after merging into \x7b\x7d; and patching the number 5 with
\x7b"a":null\x7d leaves the caller's patch as removeNull of itself. -/
theorem merge_patch_input_mutation_witness :
    patchInputAfter (Value.num 1) (Value.str "x") = Value.str "x"
    ∧ mapGet (patchAfterEntries [] [("a", Value.arr [Value.num 1])]) "a"
        = some (Value.arr [Value.num 1])
    ∧ patchInputAfter (Value.num 5) (Value.obj [("a", Value.null)])
        = Value.obj (removeNull [("a", Value.null)]) :=
  ⟨merge_patch_input_mutation.1 _ _ rfl,
    merge_patch_input_mutation.2.1 [] _ "a" _ (by rfl) rfl,
    merge_patch_input_mutation.2.2 _ _ rfl⟩

/-! Byte-level entry point Patch (claim C10)

Patch(a, b) starts with
  a = append(a, 0); copy(a[1:], a[0:]); a[0] = '['
  a = append(a, ','); a = append(a, b...); a = append(a, ']')
before unmarshalling.  A Go slice is a view (pointer, length) into a
backing array with some capacity; append writes in place when the length
is below the capacity and only then allocates a fresh array.  So when the
caller's slice has spare capacity, the shift and the write of '[' land in
the caller's own backing array.  We model the backing array as a list of
bytes whose length is the capacity, together with the slice length, and
track the contents of the caller's array alongside, freezing it once an
append reallocates. -/

/-- A Go byte slice: backing array contents (the list's length is the
capacity) and the slice length. -/
structure ByteSlice where
  arr : List Nat
  len : Nat

/-- The state of the local slice a inside Patch: its current backing
array and length, the current contents of the caller's backing array, and
whether the two are still the same array. -/
structure BufState where
  backing : List Nat
  len : Nat
  callerArr : List Nat
  shared : Bool

/-- An in-place write through the slice: it rewrites the backing array,
and the caller's array with it exactly when they are still shared. -/
def writeInPlace (s : BufState) (f : List Nat → List Nat) : BufState :=
  { s with backing := f s.backing,
           callerArr := if s.shared then f s.backing else s.callerArr }

/-- Go append of one byte: in place below capacity, otherwise into a
fresh array no longer shared with the caller. -/
def sliceAppend (s : BufState) (b : Nat) : BufState :=
  if s.len < s.backing.length then
    { writeInPlace s (fun arr => arr.set s.len b) with len := s.len + 1 }
  else
    { backing := s.backing.take s.len ++ [b], len := s.len + 1,
      callerArr := s.callerArr, shared := false }

/-- copy(a[1:], a[0:]): move bytes 0..len-2 to positions 1..len-1 (Go copy
has memmove semantics, so the source bytes are read before being
overwritten); byte 0 and everything beyond the length are untouched. -/
def sliceCopyShift (s : BufState) : BufState :=
  writeInPlace s
    (fun arr => arr.take 1 ++ arr.take (s.len - 1) ++ arr.drop s.len)

/-- a[i] = b. -/
def sliceSet (s : BufState) (i b : Nat) : BufState :=
  writeInPlace s (fun arr => arr.set i b)

/-- The slice-building prefix of Patch(a, b), through which every write to
the caller's array happens: append 0, shift, write 91 at index 0, then
append 44, the bytes of b, and 93 (the ASCII codes of the bracket, comma
and closing bracket). -/
def runPatchPrefix (a : ByteSlice) (b : List Nat) : BufState :=
  let s0 : BufState := ⟨a.arr, a.len, a.arr, true⟩
  let s1 := sliceAppend s0 0
  let s2 := sliceCopyShift s1
  let s3 := sliceSet s2 0 91
  let s4 := sliceAppend s3 44
  let s5 := List.foldl sliceAppend s4 b
  sliceAppend s5 93

/-- Claim C10: for the input a = "123 125" (the bytes of a two-byte JSON text)
held in a backing array with capacity 8 and patch bytes "null", the
in-place prefix shift of Patch rewrites the caller's buffer: afterwards
the first two bytes of the caller's array are 91 and 123 (the text now
starts with the inserted bracket), no longer the original bytes 123 and
125. -/
theorem patchBytes_mutates_caller_buffer :
    (runPatchPrefix ⟨[123, 125, 0, 0, 0, 0, 0, 0], 2⟩
        [110, 117, 108, 108]).callerArr.take 2 = [91, 123]
    ∧ (runPatchPrefix ⟨[123, 125, 0, 0, 0, 0, 0, 0], 2⟩
        [110, 117, 108, 108]).callerArr.take 2 ≠ [123, 125] := by
  constructor
  · rfl
  · decide

end Jsonmp
